import Mathlib

/-!
Shallow embedding of the todoscan repository (TypeScript) in Lean 4.

Source files embedded:
  * src/classes/Todo.ts        (src/unnamed/part_002, the current revision of the
    class: it is the one with break statements in determinePriority and the
    chalk highlighting in toString that matches src/index.ts; src/unnamed/part_001
    is an earlier revision of the same class)
  * src/interfaces/ITodo.ts    (src/unnamed/part_000)
  * src/BaseConfig.ts          (first document: the revision with timeWarning,
    which src/index.ts reads)
  * src/index.ts               (scanDirectory, scanFileForTodos, and the
    filter / summary logic of the scan action)

Modelling conventions:
  * JavaScript strings become Lean String / List Char; the regular expressions
    of Todo.ts are hand compiled to explicit scanning functions that reproduce
    the leftmost-match semantics of RegExp.prototype.match for these concrete
    patterns.
  * The configurable pattern of scanFileForTodos (new RegExp(config.pattern.regex)
    followed by .test) is abstracted as a Boolean test on the character list of a
    line; the default pattern "\btodo\b" is compiled explicitly below.
  * JavaScript Date / dayjs timestamps become integers (milliseconds since the
    epoch, local time treated as UTC); new Date(y, monthIndex, day) is modelled
    by keeping the raw constructor arguments and, where a calendar reading is
    needed, by the standard days-from-civil conversion, which is linear in the
    day argument exactly as the JavaScript constructor normalisation is.
  * The file system is modelled as a tree; a file carries an optional content
    (none = the read fails, the catch branch of scanFileForTodos).
-/

/-- Modelled from the spec: the Priority enumeration {Low, Medium, High}
(src/enums/Priority.ts is imported by the sources but not present in src/). -/
inductive Priority where
  | Low
  | Medium
  | High
deriving DecidableEq, Repr

/-- JavaScript regex word character class \w = [A-Za-z0-9_] (ASCII). -/
def isWordChar (c : Char) : Bool :=
  (('a' ≤ c && c ≤ 'z') || ('A' ≤ c && c ≤ 'Z') || ('0' ≤ c && c ≤ '9') || c = '_')

/-- Literal match of pat against the start of cs. -/
def leadsWith : List Char → List Char → Bool
  | [], _ => true
  | _ :: _, [] => false
  | p :: ps, c :: cs => p = c && leadsWith ps cs

/-- Leftmost match of the regex @prio=(\w+) over the content: at each start
position the literal @prio= must be followed by at least one word character;
the capture is the maximal word-character run (greedy \w+). -/
def prioCapture : List Char → Option (List Char)
  | [] => none
  | c :: cs =>
    if leadsWith "@prio=".data (c :: cs) then
      let w := ((c :: cs).drop 6).takeWhile isWordChar
      if w.isEmpty then prioCapture cs else some w
    else prioCapture cs

/-- Leftmost match of the regex @resp=([\w+,]+): the capture is the maximal
run over the class [\w+,] after the literal, and must be nonempty. -/
def respCapture : List Char → Option (List Char)
  | [] => none
  | c :: cs =>
    if leadsWith "@resp=".data (c :: cs) then
      let w := ((c :: cs).drop 6).takeWhile (fun d => isWordChar d || d = '+' || d = ',')
      if w.isEmpty then respCapture cs else some w
    else respCapture cs

/-- Shape check for \d{4}-\d{2}-\d{2} at the start of cs. -/
def dueShape (cs : List Char) : Bool :=
  match cs with
  | y1 :: y2 :: y3 :: y4 :: h1 :: m1 :: m2 :: h2 :: d1 :: d2 :: _ =>
    y1.isDigit && y2.isDigit && y3.isDigit && y4.isDigit && h1 = '-' &&
      m1.isDigit && m2.isDigit && h2 = '-' && d1.isDigit && d2.isDigit
  | _ => false

/-- Leftmost match of the regex @due=(\d{4}-\d{2}-\d{2}); the capture is the
ten character date body. -/
def dueCapture : List Char → Option (List Char)
  | [] => none
  | c :: cs =>
    if leadsWith "@due=".data (c :: cs) && dueShape ((c :: cs).drop 5) then
      some (((c :: cs).drop 5).take 10)
    else dueCapture cs

/-- String.prototype.split with a one character separator: n separators yield
n+1 (possibly empty) segments. -/
def splitOn (sep : Char) : List Char → List (List Char)
  | [] => [[]]
  | c :: cs =>
    if c = sep then
      [] :: splitOn sep cs
    else
      match splitOn sep cs with
      | [] => [[c]]
      | s :: ss => (c :: s) :: ss

/-- parseInt on a run of decimal digits (radix 10). -/
def parseIntDec (cs : List Char) : Int :=
  cs.foldl (fun acc c => 10 * acc + (Int.ofNat c.toNat - 48)) 0

/-- Todo.determinePriority of src/unnamed/part_002: match @prio=(\w+), lower
case the capture and switch over low / medium / high, warning (second
component true) on any other word. -/
def determinePriority (content : String) : Option Priority × Bool :=
  match prioCapture content.data with
  | none => (none, false)
  | some w =>
    let lw := w.map Char.toLower
    if lw = "low".data then (some Priority.Low, false)
    else if lw = "medium".data then (some Priority.Medium, false)
    else if lw = "high".data then (some Priority.High, false)
    else (none, true)

/-- Todo.determineDueDate: match @due=(\d{4}-\d{2}-\d{2}), split the capture on
the dash and hand (parseInt parts[0], parseInt parts[1] - 1, parseInt parts[2] - 1)
to the Date constructor; the triple of raw constructor arguments
(year, monthIndex, day) is kept. -/
def determineDueDate (content : String) : Option (Int × Int × Int) :=
  match dueCapture content.data with
  | none => none
  | some cap =>
    let dateParts := splitOn '-' cap
    some (parseIntDec (dateParts.getD 0 []),
          parseIntDec (dateParts.getD 1 []) - 1,
          parseIntDec (dateParts.getD 2 []) - 1)

/-- Todo.determineResponsibles: match @resp=([\w+,]+), split the capture on the
comma and drop the empty segments. -/
def determineResponsibles (content : String) : Option (List String) :=
  match respCapture content.data with
  | none => none
  | some cap =>
    some (((splitOn ',' cap).filter (fun seg => seg ≠ [])).map List.asString)

/-- The Record entity (ITodo / class Todo): path, 1-based line, trimmed
content, and the three optional extracted fields. dueDate keeps the raw
JavaScript Date constructor arguments (year, monthIndex, day). -/
structure Todo where
  path : String
  line : Nat
  content : String
  priority : Option Priority
  dueDate : Option (Int × Int × Int)
  responsibles : Option (List String)
deriving DecidableEq, Repr

/-- The Todo constructor: stores path / line / content and runs the three
independent extractions on the content. The warning flag of determinePriority
is dropped here (it only reaches the console). -/
def mkTodo (path : String) (line : Nat) (content : String) : Todo :=
  { path := path
    line := line
    content := content
    priority := (determinePriority content).1
    dueDate := determineDueDate content
    responsibles := determineResponsibles content }

/-- JavaScript whitespace trimmed by String.prototype.trim (ASCII part). -/
def isJsWhitespace (c : Char) : Bool :=
  c = ' ' || c = '\t' || c = '\n' || c = '\r' || c = '\x0b' || c = '\x0c'

/-- String.prototype.trim on a character list. -/
def trimChars (cs : List Char) : List Char :=
  ((cs.dropWhile isJsWhitespace).reverse.dropWhile isJsWhitespace).reverse

/-- The scan configuration (shape of BaseConfig.pattern plus
directoryExceptions); the compiled regex is abstracted as a Boolean test on
the character list of a line. -/
structure ScanConfig where
  test : List Char → Bool
  limit : Nat
  caseSensitive : Bool
  directoryExceptions : List String

/-- One position of the default pattern \btodo\b: the literal todo with a word
boundary on each side. prev is the character before the position, if any. -/
def todoAt (prev : Option Char) (cs : List Char) : Bool :=
  match cs with
  | 't' :: 'o' :: 'd' :: 'o' :: rest =>
    (match prev with
     | none => true
     | some p => !isWordChar p) &&
    (match rest with
     | [] => true
     | c :: _ => !isWordChar c)
  | _ => false

/-- Search loop for \btodo\b. -/
def hasWordTodoAux (prev : Option Char) : List Char → Bool
  | [] => false
  | c :: cs => todoAt prev (c :: cs) || hasWordTodoAux (some c) cs

/-- The default pattern "\btodo\b" of BaseConfig, compiled: some occurrence of
todo delimited by word boundaries. -/
def hasWordTodo (cs : List Char) : Bool :=
  hasWordTodoAux none cs

/-- BaseConfig of src/BaseConfig.ts (the revision with timeWarning; the
timeWarning field itself only feeds the elapsed-time message and is not part
of the scanning model). -/
def BaseConfig : ScanConfig :=
  { test := hasWordTodo
    limit := 300
    caseSensitive := false
    directoryExceptions := ["vendor", "node_modules", ".git", "sass", "js", "Migrations"] }

/-- The per line condition of scanFileForTodos:
line.length <= limit && regex.test(caseSensitive ? line : line.toLowerCase()). -/
def lineCond (cfg : ScanConfig) (l : List Char) : Bool :=
  l.length ≤ cfg.limit && cfg.test (if cfg.caseSensitive then l else l.map Char.toLower)

/-- The forEach loop of scanFileForTodos over the lines, carrying the 0-based
index; a matching line pushes new Todo(filePath, index + 1, line.trim()). -/
def scanLines (cfg : ScanConfig) (path : String) : Nat → List (List Char) → List Todo
  | _, [] => []
  | i, l :: rest =>
    (if lineCond cfg l then [mkTodo path (i + 1) (trimChars l).asString] else []) ++
      scanLines cfg path (i + 1) rest

/-- scanFileForTodos of src/index.ts: on a successful read, split the data on
the newline and run the loop; the catch branch (content = none, unreadable or
undecodable file) yields the empty list. -/
def scanFileForTodos (cfg : ScanConfig) (path : String) (content : Option String) : List Todo :=
  match content with
  | none => []
  | some data => scanLines cfg path 0 (splitOn '\n' data.data)

/-- path.join of two segments. -/
def pathJoin (a b : String) : String :=
  a ++ "/" ++ b

mutual
/-- A directory tree entry: a file with an optional content (none = the read
fails), a subdirectory, or another entry kind (symlink, device, ...) for which
stat reports neither isFile nor isDirectory. -/
inductive FSEntry where
  | file (name : String) (content : Option String)
  | dir (name : String) (entries : FSList)
  | other (name : String)
/-- The entry list of one directory, as readdir returns it. -/
inductive FSList where
  | nil
  | cons (e : FSEntry) (es : FSList)
end

mutual
/-- The body of the readdir loop of scanDirectory for one entry: a
subdirectory is skipped entirely when its base name is in
directoryExceptions, otherwise scanned recursively; a file goes to
scanFileForTodos; any other entry kind is ignored. -/
def scanEntry (cfg : ScanConfig) (dirPath : String) : FSEntry → List Todo
  | .file name content => scanFileForTodos cfg (pathJoin dirPath name) content
  | .dir name entries =>
    if cfg.directoryExceptions.contains name then []
    else scanFList cfg (pathJoin dirPath name) entries
  | .other _ => []
/-- The readdir loop of scanDirectory: results are concatenated in entry
order. -/
def scanFList (cfg : ScanConfig) (dirPath : String) : FSList → List Todo
  | .nil => []
  | .cons e es => scanEntry cfg dirPath e ++ scanFList cfg dirPath es
end

/-- scanDirectory of src/index.ts, applied to the entry list readdir returns
for the root (the root directory itself is not checked against
directoryExceptions). -/
def scanDirectory (cfg : ScanConfig) (root : String) (entries : FSList) : List Todo :=
  scanFList cfg root entries

/-- Days between the civil date y-m-d and 1970-01-01 (standard
days-from-civil); linear in d, so it extends to the out of range day values
the JavaScript Date constructor normalises. -/
def daysFromCivil (y m d : Int) : Int :=
  let y1 := if m ≤ 2 then y - 1 else y
  let era := y1.fdiv 400
  let yoe := y1 - era * 400
  let mp := (m + 9).emod 12
  let doy := (153 * mp + 2).fdiv 5 + d - 1
  let doe := yoe * 365 + yoe.fdiv 4 - yoe.fdiv 100 + doy
  era * 146097 + doe - 719468

/-- Epoch day denoted by new Date(y, monthIndex, day): the month index is
normalised into a year and a 1-based month, the day argument passes through
linearly. -/
def epochDayOfArgs (y mi d : Int) : Int :=
  daysFromCivil (y + mi.fdiv 12) (mi.emod 12 + 1) d

/-- dayjs(todo.dueDate).valueOf(): milliseconds of the local midnight denoted
by the stored Date constructor arguments. -/
def dueTimestamp (a : Int × Int × Int) : Int :=
  86400000 * epochDayOfArgs a.1 a.2.1 a.2.2

/-- dayjs(todo.dueDate) with dayjs(undefined) = the current instant: an absent
dueDate evaluates to now. -/
def dueMs (now : Int) (t : Todo) : Int :=
  match t.dueDate with
  | some a => dueTimestamp a
  | none => now

/-- The --due filter of the scan action:
results.filter(todo => dayjs(todo.dueDate) <= dayjs(options.due)). -/
def filterByDueBefore (now due : Int) (todos : List Todo) : List Todo :=
  todos.filter (fun t => dueMs now t ≤ due)

/-- The --user filter of the scan action:
results.filter(todo => todo.responsibles?.includes(options.user)); the
optional chain is undefined, hence falsy, when responsibles is absent. -/
def filterByResponsible (user : String) (todos : List Todo) : List Todo :=
  todos.filter (fun t =>
    match t.responsibles with
    | none => false
    | some l => l.contains user)

/-- The four boundaries the scan action computes with dayjs: now, endOf(day),
endOf(week), endOf(month), as millisecond instants. -/
structure Boundaries where
  now : Int
  eod : Int
  eow : Int
  eom : Int

/-- The four due-date summary counters. -/
structure DueCounts where
  pastDue : Nat
  dueDay : Nat
  dueWeek : Nat
  dueMonth : Nat
deriving DecidableEq, Repr

/-- One step of the due-date bucketing reduce of the scan action: a record
with a dueDate goes through the if / else-if chain
dueDate < now, dueDate < endOfDay, dueDate < endOfWeek, dueDate < endOfMonth. -/
def bucketStep (b : Boundaries) (c : DueCounts) (t : Todo) : DueCounts :=
  match t.dueDate with
  | none => c
  | some a =>
    let d := dueTimestamp a
    if d < b.now then { c with pastDue := c.pastDue + 1 }
    else if d < b.eod then { c with dueDay := c.dueDay + 1 }
    else if d < b.eow then { c with dueWeek := c.dueWeek + 1 }
    else if d < b.eom then { c with dueMonth := c.dueMonth + 1 }
    else c

/-- The due-date bucketing reduce of the scan action. -/
def bucketByDueDate (b : Boundaries) (todos : List Todo) : DueCounts :=
  todos.foldl (bucketStep b) ⟨0, 0, 0, 0⟩

/-- Specification-side classifier: the bucket the else-if chain assigns to a
millisecond instant, if any. -/
inductive Bucket where
  | pastDue
  | dueDay
  | dueWeek
  | dueMonth
deriving DecidableEq, Repr

/-- The bucket of one instant under the chain of the reduce. -/
def bucketOf (b : Boundaries) (d : Int) : Option Bucket :=
  if d < b.now then some Bucket.pastDue
  else if d < b.eod then some Bucket.dueDay
  else if d < b.eow then some Bucket.dueWeek
  else if d < b.eom then some Bucket.dueMonth
  else none

/-- The bucket of one record: none when the dueDate is absent. -/
def bucketOfTodo (b : Boundaries) (t : Todo) : Option Bucket :=
  match t.dueDate with
  | none => none
  | some a => bucketOf b (dueTimestamp a)

mutual
/-- Prune: empty the entry list of every directory whose base name is in
directoryExceptions, at any depth. Scanning is invariant under this pruning,
which is the precise sense in which an excluded directory, wherever it sits,
contributes nothing. -/
def pruneEntry (cfg : ScanConfig) : FSEntry → FSEntry
  | .file n c => .file n c
  | .dir n es =>
    if cfg.directoryExceptions.contains n then .dir n .nil
    else .dir n (pruneFList cfg es)
  | .other n => .other n
/-- pruneEntry on every entry of a list. -/
def pruneFList (cfg : ScanConfig) : FSList → FSList
  | .nil => .nil
  | .cons e es => .cons (pruneEntry cfg e) (pruneFList cfg es)
end

mutual
/-- Drop every unreadable file (content = none) from the tree, at any depth.
Scanning is invariant under this removal: the result of a scan is exactly the
records of the readable files. -/
def dropUnreadEntry : FSEntry → FSEntry
  | .file n c => .file n c
  | .dir n es => .dir n (dropUnreadList es)
  | .other n => .other n
/-- dropUnreadEntry on a list, removing the unreadable files themselves. -/
def dropUnreadList : FSList → FSList
  | .nil => .nil
  | .cons (.file _ none) es => dropUnreadList es
  | .cons (.file n (some d)) es => .cons (.file n (some d)) (dropUnreadList es)
  | .cons (.dir n es') es => .cons (dropUnreadEntry (.dir n es')) (dropUnreadList es)
  | .cons (.other n) es => .cons (.other n) (dropUnreadList es)
end

/-- A configuration whose pattern accepts every line (realisable as the empty
regex), with a length limit of 2 and case sensitive matching; used to witness
the behaviour of the per line condition on concrete inputs. -/
def tinyConfig : ScanConfig :=
  { test := fun _ => true
    limit := 2
    caseSensitive := true
    directoryExceptions := [] }

/-- A configuration whose pattern accepts every line (realisable as the empty
regex) with the default limit 300; a whitespace-only line then matches and is
stored trimmed to the empty content. -/
def matchAllConfig : ScanConfig :=
  { test := fun _ => true
    limit := 300
    caseSensitive := false
    directoryExceptions := [] }

/-- The dayjs boundaries for the instant 2024-01-29T12:00 (a Monday, local
time read as UTC): endOf(day) is Jan 29 23:59:59.999, endOf(week) is Saturday
Feb 3 23:59:59.999, endOf(month) is Jan 31 23:59:59.999 — the end of the week
falls after the end of the month. -/
def janBoundaries : Boundaries :=
  { now := 1706529600000
    eod := 1706572799999
    eow := 1707004799999
    eom := 1706745599999 }

/-! ## Helper lemmas -/

theorem data_asString (l : List Char) : (List.asString l).data = l := rfl

theorem asString_ne_empty (l : List Char) (h : l ≠ []) : List.asString l ≠ "" := by
  intro he
  exact h (congrArg String.data he)

/-- The loop of scanFileForTodos, characterised as a filterMap over the
enumerated lines. -/
theorem scanLines_eq (cfg : ScanConfig) (path : String) :
    ∀ (i : Nat) (ls : List (List Char)),
      scanLines cfg path i ls =
        (ls.enumFrom i).filterMap (fun p =>
          if lineCond cfg p.2 then
            some (mkTodo path (p.1 + 1) (trimChars p.2).asString)
          else none)
  | _, [] => rfl
  | i, l :: rest => by
    rw [scanLines, List.enumFrom, List.filterMap_cons, scanLines_eq cfg path (i + 1) rest]
    by_cases h : lineCond cfg l <;> simp [h]

/-- One record per matching line: the length of the loop result counts the
lines that satisfy the condition. -/
theorem scanLines_length (cfg : ScanConfig) (path : String) :
    ∀ (i : Nat) (ls : List (List Char)),
      (scanLines cfg path i ls).length = ls.countP (lineCond cfg)
  | _, [] => rfl
  | i, l :: rest => by
    rw [scanLines, List.countP_cons, List.length_append,
      scanLines_length cfg path (i + 1) rest]
    by_cases h : lineCond cfg l <;> simp [h, Nat.add_comm]

/-- Every record the loop produces comes from a matching line at the recorded
offset. -/
theorem scanLines_mem (cfg : ScanConfig) (path : String) :
    ∀ (i : Nat) (ls : List (List Char)) (r : Todo), r ∈ scanLines cfg path i ls →
      ∃ j, j < ls.length ∧ lineCond cfg (ls.getD j []) = true ∧
        r = mkTodo path (i + j + 1) (trimChars (ls.getD j [])).asString
  | _, [], _, hr => absurd hr (List.not_mem_nil _)
  | i, l :: rest, r, hr => by
    rw [scanLines] at hr
    rcases List.mem_append.mp hr with hl | hl
    · by_cases h : lineCond cfg l
      · simp only [h, if_true, List.mem_singleton] at hl
        exact ⟨0, Nat.succ_pos _, by simpa using h, by simpa using hl⟩
      · simp [h] at hl
    · obtain ⟨j, hj, hcond, heq⟩ := scanLines_mem cfg path (i + 1) rest r hl
      exact ⟨j + 1, by simpa using Nat.succ_lt_succ hj, by simpa using hcond,
        by simpa [Nat.add_assoc, Nat.add_comm, Nat.add_left_comm] using heq⟩

/-- The length half of the line condition. -/
theorem lineCond_length_le (cfg : ScanConfig) (l : List Char) (h : lineCond cfg l = true) :
    l.length ≤ cfg.limit := by
  have := (Bool.and_eq_true _ _).mp h
  exact Nat.le_of_ble_eq_true (by simpa using this.1)

/-! ## C1 -/

/-- C1: the claim says a tag @due=YYYY-MM-DD is extracted as the calendar date
literally as written, with no off-by-one adjustment of the day of month. The
code subtracts 1 from the day before handing it to the Date constructor:
@due=2024-03-15 becomes new Date(2024, 2, 14), which is the calendar date
2024-03-14, one day earlier than written. The spec states the literal reading
as the contract and explicitly calls the day subtraction an extraction bug, so
this is a bug of the code, not of the claim. -/
theorem dueDate_off_by_one_bug :
    determineDueDate "TODO @due=2024-03-15" = some (2024, 2, 14) ∧
    epochDayOfArgs 2024 2 14 = daysFromCivil 2024 3 14 ∧
    daysFromCivil 2024 3 14 ≠ daysFromCivil 2024 3 15 := by
  refine ⟨by decide, by decide, by decide⟩

/-! ## C2 -/

/-- C2: when the content carries a tag @prio=w, the lower-cased captured word
low / medium / high maps to the corresponding Priority; any other word yields
no priority together with a warning; and the dueDate and responsibles fields
of the constructed record are the independent extractions of the same content,
unaffected by the priority outcome. -/
theorem determinePriority_spec (content : String) (w : List Char)
    (h : prioCapture content.data = some w) :
    (w.map Char.toLower = "low".data →
      determinePriority content = (some Priority.Low, false)) ∧
    (w.map Char.toLower = "medium".data →
      determinePriority content = (some Priority.Medium, false)) ∧
    (w.map Char.toLower = "high".data →
      determinePriority content = (some Priority.High, false)) ∧
    (w.map Char.toLower ≠ "low".data → w.map Char.toLower ≠ "medium".data →
      w.map Char.toLower ≠ "high".data → determinePriority content = (none, true)) ∧
    (∀ path line, (mkTodo path line content).dueDate = determineDueDate content ∧
      (mkTodo path line content).responsibles = determineResponsibles content) := by
  refine ⟨?_, ?_, ?_, ?_, fun path line => ⟨rfl, rfl⟩⟩
  · intro hl; simp [determinePriority, h, hl]
  · intro hl; simp [determinePriority, h, hl]
  · intro hl; simp [determinePriority, h, hl]
  · intro h1 h2 h3; simp [determinePriority, h, h1, h2, h3]

/-- C2 witness: @prio=HIGH lower-cases to high and maps to Priority.High. -/
theorem determinePriority_spec_witness :
    determinePriority "TODO @prio=HIGH" = (some Priority.High, false) :=
  (determinePriority_spec "TODO @prio=HIGH" "HIGH".data (by decide)).2.2.1 (by decide)

/-! ## C7 -/

/-- C7: the @resp capture is split on the comma; the stored sequence drops
exactly the empty segments, keeps every identifier nonempty, preserves the
order of appearance (it is a sublist of the split), and can be the empty
sequence when every segment was empty. -/
theorem determineResponsibles_spec :
    determineResponsibles "TODO @resp=alice,bob,,carol" = some ["alice", "bob", "carol"] ∧
    determineResponsibles "TODO @resp=,," = some [] ∧
    (∀ (content : String) (l : List String), determineResponsibles content = some l →
      ∀ s ∈ l, s ≠ "") ∧
    (∀ (content : String) (cap : List Char) (l : List String),
      respCapture content.data = some cap → determineResponsibles content = some l →
      (l.map String.data).Sublist (splitOn ',' cap)) := by
  refine ⟨by decide, by decide, ?_, ?_⟩
  · intro content l h s hs
    rcases hc : respCapture content.data with _ | cap
    · simp [determineResponsibles, hc] at h
    · simp only [determineResponsibles, hc, Option.some.injEq] at h
      subst h
      obtain ⟨seg, hseg, hs'⟩ := List.mem_map.mp hs
      have hne : seg ≠ [] := by
        have := (List.mem_filter.mp hseg).2
        simpa using this
      exact hs' ▸ asString_ne_empty seg hne
  · intro content cap l hc h
    simp only [determineResponsibles, hc, Option.some.injEq] at h
    subst h
    rw [List.map_map]
    have hid : ∀ seg : List Char, (String.data ∘ List.asString) seg = seg := fun seg => rfl
    have hmap : (((splitOn ',' cap).filter (fun seg => seg ≠ [])).map
        (String.data ∘ List.asString)) = ((splitOn ',' cap).filter (fun seg => seg ≠ [])) := by
      rw [List.map_congr_left (fun seg _ => hid seg)]
      exact List.map_id _
    rw [hmap]
    exact List.filter_sublist _

/-- C7 witness: the nonemptiness conjunct applied to the example capture. -/
theorem determineResponsibles_spec_witness : "alice" ≠ "" :=
  determineResponsibles_spec.2.2.1 "TODO @resp=alice,bob,,carol"
    ["alice", "bob", "carol"] (by decide) "alice" (by decide)

/-! ## C10 -/

/-- C10: the --user filter keeps exactly the records whose responsibles field
is present and contains the user as an exact element; a record with an absent
responsibles field is always excluded. -/
theorem filterByResponsible_mem (user : String) (todos : List Todo) (t : Todo) :
    (t ∈ filterByResponsible user todos ↔
      t ∈ todos ∧ ∃ l, t.responsibles = some l ∧ user ∈ l) ∧
    (t.responsibles = none → t ∉ filterByResponsible user todos) := by
  have hmain : t ∈ filterByResponsible user todos ↔
      t ∈ todos ∧ ∃ l, t.responsibles = some l ∧ user ∈ l := by
    rw [filterByResponsible, List.mem_filter]
    refine and_congr_right fun _ => ?_
    rcases hr : t.responsibles with _ | l
    · simp
    · simp [List.elem_iff]
  refine ⟨hmain, fun hnone hmem => ?_⟩
  obtain ⟨-, l, hl, -⟩ := hmain.mp hmem
  rw [hnone] at hl
  cases hl

/-- C10 witness: a record tagged @resp=alice,bob is kept for user bob. -/
theorem filterByResponsible_mem_witness :
    mkTodo "f" 1 "todo @resp=alice,bob" ∈
      filterByResponsible "bob" [mkTodo "f" 1 "todo @resp=alice,bob"] :=
  (filterByResponsible_mem "bob" [mkTodo "f" 1 "todo @resp=alice,bob"]
    (mkTodo "f" 1 "todo @resp=alice,bob")).1.mpr
    ⟨by decide, ["alice", "bob"], by decide, by decide⟩

/-! ## C3 -/

/-- C3 counterexample: the claim says a record with an absent dueDate is
always excluded by the --due filter. The filter compares
dayjs(todo.dueDate) <= dayjs(options.due), and dayjs(undefined) is the
current instant, so with the current instant 0 and the cutoff 1 a record with
no dueDate is kept. -/
theorem filterByDueBefore_absent_kept :
    (mkTodo "f" 1 "todo x").dueDate = none ∧
    filterByDueBefore 0 1 [mkTodo "f" 1 "todo x"] = [mkTodo "f" 1 "todo x"] := by
  refine ⟨by decide, by decide⟩

/-- C3 amended: the --due filter keeps exactly the records whose dueDate
instant, with an absent dueDate defaulting to the current instant
(dayjs(undefined)), is at most the cutoff; consequently records with an
absent dueDate are excluded exactly when the cutoff lies before the current
instant, and in that case the filter behaves as the claim states. -/
theorem filterByDueBefore_mem (now due : Int) (todos : List Todo) (t : Todo) :
    (t ∈ filterByDueBefore now due todos ↔ t ∈ todos ∧ dueMs now t ≤ due) ∧
    (due < now →
      (t ∈ filterByDueBefore now due todos ↔
        t ∈ todos ∧ ∃ a, t.dueDate = some a ∧ dueTimestamp a ≤ due)) := by
  have hmain : t ∈ filterByDueBefore now due todos ↔ t ∈ todos ∧ dueMs now t ≤ due := by
    rw [filterByDueBefore, List.mem_filter]
    exact and_congr_right fun _ => decide_eq_true_iff
  refine ⟨hmain, fun hlt => hmain.trans (and_congr_right fun _ => ?_)⟩
  rcases ha : t.dueDate with _ | a
  · simp only [dueMs, ha]
    constructor
    · intro h; omega
    · rintro ⟨a, h, -⟩; cases h
  · simp [dueMs, ha]

/-- C3 witness: with the cutoff before the current instant, the record with
an absent dueDate is excluded. -/
theorem filterByDueBefore_mem_witness :
    mkTodo "f" 1 "todo x" ∉ filterByDueBefore 5 3 [mkTodo "f" 1 "todo x"] := by
  intro hmem
  obtain ⟨-, a, ha, -⟩ :=
    ((filterByDueBefore_mem 5 3 [mkTodo "f" 1 "todo x"] (mkTodo "f" 1 "todo x")).2
      (by decide)).mp hmem
  have hd : (mkTodo "f" 1 "todo x").dueDate = none := by decide
  rw [hd] at ha
  cases ha

/-! ## C4 -/

/-- C4: scanning one readable file yields exactly one record per line that is
both within the length limit and accepted by the configured pattern test
(applied to the lower-cased line when caseSensitive is false); the line field
of each record is the correct 1-based line number and the content the trimmed
line; a line over the limit yields no record at its line number even when the
pattern accepts it. -/
theorem scanFileForTodos_per_line (cfg : ScanConfig) (path : String) (data : String) :
    scanFileForTodos cfg path (some data) =
      ((splitOn '\n' data.data).enumFrom 0).filterMap (fun q =>
        if lineCond cfg q.2 then some (mkTodo path (q.1 + 1) (trimChars q.2).asString)
        else none) ∧
    (scanFileForTodos cfg path (some data)).length =
      (splitOn '\n' data.data).countP (lineCond cfg) ∧
    (∀ r ∈ scanFileForTodos cfg path (some data),
      ∃ i, i < (splitOn '\n' data.data).length ∧ r.line = i + 1 ∧
        lineCond cfg ((splitOn '\n' data.data).getD i []) = true ∧
        r = mkTodo path (i + 1) (trimChars ((splitOn '\n' data.data).getD i [])).asString) ∧
    (∀ i, cfg.limit < ((splitOn '\n' data.data).getD i []).length →
      ∀ r ∈ scanFileForTodos cfg path (some data), r.line ≠ i + 1) := by
  refine ⟨scanLines_eq cfg path 0 _, scanLines_length cfg path 0 _, ?_, ?_⟩
  · intro r hr
    obtain ⟨j, hj, hcond, heq⟩ := scanLines_mem cfg path 0 _ r hr
    exact ⟨j, hj, by simp [heq, mkTodo], hcond, by simpa using heq⟩
  · intro i hi r hr hline
    obtain ⟨j, hj, hcond, heq⟩ := scanLines_mem cfg path 0 _ r hr
    have hjline : r.line = j + 1 := by simp [heq, mkTodo]
    have hij : j = i := by omega
    subst hij
    have := lineCond_length_le cfg _ hcond
    omega

/-- C4 witness: with an accept-everything pattern and limit 2, the first line
abc (length 3) yields no record, while the record of the second line ok gets
line number 2. -/
theorem scanFileForTodos_per_line_witness : (mkTodo "f" 2 "ok").line ≠ 0 + 1 :=
  (scanFileForTodos_per_line tinyConfig "f" "abc\nok").2.2.2 0 (by decide)
    (mkTodo "f" 2 "ok") (by decide)

/-! ## C9 -/

/-- C9 counterexample: the claim quantifies over every configuration, but a
configuration whose pattern accepts a whitespace-only line (realisable as the
empty regex) produces a record whose trimmed content is the empty string. -/
theorem scan_empty_content_record :
    scanDirectory matchAllConfig "r" (.cons (.file "f" (some " ")) .nil) =
      [mkTodo "r/f" 1 ""] ∧
    (mkTodo "r/f" 1 "").content = "" := by
  refine ⟨by decide, by decide⟩

/-- Records of one file satisfy the invariants: line is at least 1, and the
content is nonempty whenever every line the condition accepts has a nonempty
trim. -/
theorem scanFileForTodos_inv (cfg : ScanConfig) (path : String) (content : Option String)
    (r : Todo) (hr : r ∈ scanFileForTodos cfg path content) :
    1 ≤ r.line ∧ ((∀ l, lineCond cfg l = true → trimChars l ≠ []) → r.content ≠ "") := by
  cases content with
  | none => exact absurd hr (List.not_mem_nil r)
  | some data =>
    obtain ⟨j, hj, hcond, heq⟩ := scanLines_mem cfg path 0 _ r hr
    subst heq
    refine ⟨by simp [mkTodo], fun hW => ?_⟩
    exact asString_ne_empty _ (hW _ hcond)

mutual
/-- The record invariants, lifted over one tree entry. -/
theorem scanEntry_inv (cfg : ScanConfig) (p : String) :
    ∀ (e : FSEntry) (r : Todo), r ∈ scanEntry cfg p e →
      1 ≤ r.line ∧ ((∀ l, lineCond cfg l = true → trimChars l ≠ []) → r.content ≠ "")
  | .file n c, r, hr => scanFileForTodos_inv cfg (pathJoin p n) c r hr
  | .dir n es, r, hr => by
    rw [scanEntry] at hr
    by_cases h : cfg.directoryExceptions.contains n
    · rw [if_pos h] at hr
      exact absurd hr (List.not_mem_nil r)
    · rw [if_neg h] at hr
      exact scanFList_inv cfg (pathJoin p n) es r hr
  | .other n, r, hr => absurd hr (List.not_mem_nil r)
/-- The record invariants, lifted over an entry list. -/
theorem scanFList_inv (cfg : ScanConfig) (p : String) :
    ∀ (es : FSList) (r : Todo), r ∈ scanFList cfg p es →
      1 ≤ r.line ∧ ((∀ l, lineCond cfg l = true → trimChars l ≠ []) → r.content ≠ "")
  | .nil, r, hr => absurd hr (List.not_mem_nil r)
  | .cons e es, r, hr => by
    rw [scanFList] at hr
    rcases List.mem_append.mp hr with h | h
    · exact scanEntry_inv cfg p e r h
    · exact scanFList_inv cfg p es r h
end

/-- C9 amended: every record of a scan has line at least 1; its content is
nonempty provided every line accepted by the configured condition has a
nonempty trim (true of the default pattern, which requires the word todo in
the line) — a pattern accepting whitespace-only lines breaks the second
invariant, as the counterexample shows. -/
theorem scan_record_invariants (cfg : ScanConfig) (root : String) (entries : FSList)
    (r : Todo) (hr : r ∈ scanDirectory cfg root entries) :
    1 ≤ r.line ∧ ((∀ l, lineCond cfg l = true → trimChars l ≠ []) → r.content ≠ "") :=
  scanFList_inv cfg root entries r hr

/-- C9 witness: the record of a one file tree has line 1. -/
theorem scan_record_invariants_witness : 1 ≤ (mkTodo "r/a" 1 "todo x").line :=
  (scan_record_invariants BaseConfig "r" (.cons (.file "a" (some "todo x")) .nil)
    (mkTodo "r/a" 1 "todo x") (by decide)).1

/-! ## C5 -/

mutual
/-- Scanning is invariant under emptying every excluded directory at any
depth. -/
theorem scanEntry_pruneEntry (cfg : ScanConfig) (p : String) :
    ∀ e : FSEntry, scanEntry cfg p (pruneEntry cfg e) = scanEntry cfg p e
  | .file n c => rfl
  | .dir n es => by
    by_cases h : n ∈ cfg.directoryExceptions
    · simp [pruneEntry, scanEntry, scanFList, h]
    · simp [pruneEntry, scanEntry, h, scanFList_pruneFList cfg (pathJoin p n) es]
  | .other n => rfl
/-- The list version of the pruning invariance. -/
theorem scanFList_pruneFList (cfg : ScanConfig) (p : String) :
    ∀ es : FSList, scanFList cfg p (pruneFList cfg es) = scanFList cfg p es
  | .nil => rfl
  | .cons e es => by
    rw [pruneFList, scanFList, scanFList, scanEntry_pruneEntry cfg p e,
      scanFList_pruneFList cfg p es]
end

/-- C5: a directory entry whose base name is in directoryExceptions
contributes nothing to the scan — the result is the same as without it, for
any contents, so in particular nothing from any of its subdirectories at any
depth (equivalently, scanning is invariant under pruning every excluded
directory anywhere in the tree); a directory whose name is not excluded is
recursed into, its records preceding those of the following entries. -/
theorem scanDirectory_exceptions (cfg : ScanConfig) (p name : String)
    (sub rest : FSList) :
    (name ∈ cfg.directoryExceptions →
      scanFList cfg p (.cons (.dir name sub) rest) = scanFList cfg p rest) ∧
    (name ∉ cfg.directoryExceptions →
      scanFList cfg p (.cons (.dir name sub) rest) =
        scanFList cfg (pathJoin p name) sub ++ scanFList cfg p rest) ∧
    (∀ e : FSEntry, scanEntry cfg p (pruneEntry cfg e) = scanEntry cfg p e) := by
  refine ⟨fun hm => ?_, fun hm => ?_, scanEntry_pruneEntry cfg p⟩
  · have hc : cfg.directoryExceptions.contains name = true := List.elem_iff.mpr hm
    rw [scanFList, scanEntry, if_pos hc]
    rfl
  · have hc : ¬ cfg.directoryExceptions.contains name = true := fun h =>
      hm (List.elem_iff.mp h)
    rw [scanFList, scanEntry, if_neg hc]

/-- C5 witness: a node_modules directory containing a matching file
contributes nothing under the default configuration. -/
theorem scanDirectory_exceptions_witness :
    scanFList BaseConfig "r"
        (.cons (.dir "node_modules" (.cons (.file "x" (some "todo")) .nil)) .nil) =
      scanFList BaseConfig "r" .nil :=
  (scanDirectory_exceptions BaseConfig "r" "node_modules"
    (.cons (.file "x" (some "todo")) .nil) .nil).1 (by decide)

/-! ## C8 -/

mutual
/-- Scanning is invariant under removing every unreadable file at any depth. -/
theorem scanEntry_dropUnread (cfg : ScanConfig) (p : String) :
    ∀ e : FSEntry, scanEntry cfg p (dropUnreadEntry e) = scanEntry cfg p e
  | .file n c => rfl
  | .dir n es => by
    simp [dropUnreadEntry, scanEntry, scanFList_dropUnread cfg (pathJoin p n) es]
  | .other n => rfl
/-- The list version of the unreadable-file invariance. -/
theorem scanFList_dropUnread (cfg : ScanConfig) (p : String) :
    ∀ es : FSList, scanFList cfg p (dropUnreadList es) = scanFList cfg p es
  | .nil => rfl
  | .cons (.file n none) es => by
    rw [dropUnreadList, scanFList_dropUnread cfg p es, scanFList]
    simp [scanEntry, scanFileForTodos]
  | .cons (.file n (some d)) es => by
    rw [dropUnreadList, scanFList, scanFList, scanFList_dropUnread cfg p es]
  | .cons (.dir n es') es => by
    rw [dropUnreadList, scanFList, scanFList, scanFList_dropUnread cfg p es,
      scanEntry_dropUnread cfg p (.dir n es')]
  | .cons (.other n) es => by
    rw [dropUnreadList, scanFList, scanFList, scanFList_dropUnread cfg p es]
end

/-- C8: a file whose read fails yields the empty record sequence and the
failure does not propagate: the scan of a list with the unreadable file equals
the scan without it, and in general a scan equals the scan of the tree with
every unreadable file removed at any depth — the records of every readable
file survive. -/
theorem scan_read_error_isolated (cfg : ScanConfig) (p name : String) (rest : FSList) :
    scanFileForTodos cfg (pathJoin p name) none = [] ∧
    scanFList cfg p (.cons (.file name none) rest) = scanFList cfg p rest ∧
    (∀ es : FSList, scanFList cfg p (dropUnreadList es) = scanFList cfg p es) ∧
    (∀ e : FSEntry, scanEntry cfg p (dropUnreadEntry e) = scanEntry cfg p e) := by
  refine ⟨rfl, ?_, scanFList_dropUnread cfg p, scanEntry_dropUnread cfg p⟩
  rw [scanFList]
  simp [scanEntry, scanFileForTodos]

/-! ## C6 -/

/-- One reduce step, phrased through the specification-side classifier. -/
theorem bucketStep_eq (b : Boundaries) (c : DueCounts) (t : Todo) :
    bucketStep b c t =
      match bucketOfTodo b t with
      | none => c
      | some Bucket.pastDue => { c with pastDue := c.pastDue + 1 }
      | some Bucket.dueDay => { c with dueDay := c.dueDay + 1 }
      | some Bucket.dueWeek => { c with dueWeek := c.dueWeek + 1 }
      | some Bucket.dueMonth => { c with dueMonth := c.dueMonth + 1 } := by
  rcases ht : t.dueDate with _ | a
  · simp [bucketStep, bucketOfTodo, ht]
  · simp only [bucketStep, bucketOfTodo, bucketOf, ht]
    split_ifs <;> rfl

/-- The reduce counts, projected: each counter adds the number of records the
classifier sends to its bucket. -/
theorem bucket_foldl (b : Boundaries) :
    ∀ (todos : List Todo) (c : DueCounts),
      (List.foldl (bucketStep b) c todos).pastDue =
          c.pastDue + todos.countP (fun t => decide (bucketOfTodo b t = some Bucket.pastDue)) ∧
      (List.foldl (bucketStep b) c todos).dueDay =
          c.dueDay + todos.countP (fun t => decide (bucketOfTodo b t = some Bucket.dueDay)) ∧
      (List.foldl (bucketStep b) c todos).dueWeek =
          c.dueWeek + todos.countP (fun t => decide (bucketOfTodo b t = some Bucket.dueWeek)) ∧
      (List.foldl (bucketStep b) c todos).dueMonth =
          c.dueMonth + todos.countP (fun t => decide (bucketOfTodo b t = some Bucket.dueMonth))
  | [], c => by simp
  | t :: todos, c => by
    have hst := bucketStep_eq b c t
    obtain ⟨h1, h2, h3, h4⟩ := bucket_foldl b todos (bucketStep b c t)
    rcases hb : bucketOfTodo b t with _ | bk
    · rw [hb] at hst
      rw [hst] at h1 h2 h3 h4
      rw [List.foldl_cons, hst]
      refine ⟨?_, ?_, ?_, ?_⟩ <;> simp [List.countP_cons, hb, h1, h2, h3, h4]
    · rw [hb] at hst
      rw [hst] at h1 h2 h3 h4
      rw [List.foldl_cons, hst]
      cases bk <;>
        refine ⟨?_, ?_, ?_, ?_⟩ <;>
          simp [List.countP_cons, hb, h1, h2, h3, h4] <;> omega

/-- Mutual exclusivity in count form: the four bucket counts add up to the
number of records the classifier places in some bucket. -/
theorem bucket_count_sum (b : Boundaries) :
    ∀ todos : List Todo,
      todos.countP (fun t => decide (bucketOfTodo b t = some Bucket.pastDue)) +
        todos.countP (fun t => decide (bucketOfTodo b t = some Bucket.dueDay)) +
        todos.countP (fun t => decide (bucketOfTodo b t = some Bucket.dueWeek)) +
        todos.countP (fun t => decide (bucketOfTodo b t = some Bucket.dueMonth)) =
        todos.countP (fun t => (bucketOfTodo b t).isSome)
  | [] => rfl
  | t :: todos => by
    have IH := bucket_count_sum b todos
    rcases hb : bucketOfTodo b t with _ | bk
    · simp [List.countP_cons, hb, IH]
    · cases bk <;> simp [List.countP_cons, hb] <;> omega

/-- C6 counterexample: the claim says a record whose dueDate lies beyond the
end of the month is counted in no bucket. With the real dayjs boundaries of
Monday 2024-01-29 the end of the week (Saturday Feb 3) falls after the end of
the month (Wednesday Jan 31), and a record due Feb 2 — here the record built
from @due=2024-02-03, whose stored date is Feb 2 because of the day
subtraction — lies beyond the end of the month yet is counted in the
dueThisWeek bucket. -/
theorem bucket_beyond_month_counted :
    janBoundaries.now ≤ janBoundaries.eod ∧
    janBoundaries.eod ≤ janBoundaries.eow ∧
    janBoundaries.eom ≤ dueTimestamp (2024, 1, 2) ∧
    bucketOf janBoundaries (dueTimestamp (2024, 1, 2)) = some Bucket.dueWeek ∧
    (mkTodo "f" 1 "todo @due=2024-02-03").dueDate = some (2024, 1, 2) ∧
    bucketByDueDate janBoundaries [mkTodo "f" 1 "todo @due=2024-02-03"] =
      { pastDue := 0, dueDay := 0, dueWeek := 1, dueMonth := 0 } := by
  refine ⟨by decide, by decide, by decide, by decide, by decide, by decide⟩

/-- C6 amended: each counter of the reduce counts exactly the records the
first-matching chain pastDue / dueToday / dueThisWeek / dueThisMonth sends to
its bucket, so each record lands in at most one bucket and the buckets are
mutually exclusive; a record with no dueDate is in no bucket; and a dueDate
beyond the end of the month is counted in no bucket provided the boundaries
are ordered now ≤ endOfDay ≤ endOfWeek ≤ endOfMonth — when the end of the
week falls after the end of the month, such a date can land in dueThisWeek
instead, as the counterexample shows. -/
theorem bucketByDueDate_spec (b : Boundaries) (todos : List Todo) :
    (bucketByDueDate b todos).pastDue =
        todos.countP (fun t => decide (bucketOfTodo b t = some Bucket.pastDue)) ∧
    (bucketByDueDate b todos).dueDay =
        todos.countP (fun t => decide (bucketOfTodo b t = some Bucket.dueDay)) ∧
    (bucketByDueDate b todos).dueWeek =
        todos.countP (fun t => decide (bucketOfTodo b t = some Bucket.dueWeek)) ∧
    (bucketByDueDate b todos).dueMonth =
        todos.countP (fun t => decide (bucketOfTodo b t = some Bucket.dueMonth)) ∧
    (bucketByDueDate b todos).pastDue + (bucketByDueDate b todos).dueDay +
        (bucketByDueDate b todos).dueWeek + (bucketByDueDate b todos).dueMonth =
        todos.countP (fun t => (bucketOfTodo b t).isSome) ∧
    (∀ t : Todo, t.dueDate = none → bucketOfTodo b t = none) ∧
    (b.now ≤ b.eod → b.eod ≤ b.eow → b.eow ≤ b.eom →
      ∀ d : Int, b.eom ≤ d → bucketOf b d = none) := by
  obtain ⟨h1, h2, h3, h4⟩ := bucket_foldl b todos ⟨0, 0, 0, 0⟩
  refine ⟨by simpa using h1, by simpa using h2, by simpa using h3, by simpa using h4,
    ?_, ?_, ?_⟩
  · simp only [bucketByDueDate]
    rw [h1, h2, h3, h4]
    simpa using bucket_count_sum b todos
  · intro t ht
    simp [bucketOfTodo, ht]
  · intro hde hdw hwm d hd
    simp only [bucketOf]
    split_ifs <;> first | rfl | (exfalso; omega)

/-- C6 witness: with ordered boundaries an instant beyond the end of the month
is classified into no bucket. -/
theorem bucketByDueDate_spec_witness :
    bucketOf { now := 0, eod := 10, eow := 20, eom := 30 } 40 = none :=
  (bucketByDueDate_spec { now := 0, eod := 10, eow := 20, eom := 30 } []).2.2.2.2.2.2
    (by decide) (by decide) (by decide) 40 (by decide)
